import Mathlib

namespace TrackCleaner

/-!
Shallow embedding of the loop/spur detection and excision engine of
`src/core/service/track_cutter.py` (class `TrackCutter`) together with the
selection-mode logic of `src/ui/io.py` (`IO.input_bad_segments`).

Conventions of the embedding:
* Track points are an abstract type `α`; the great-circle distance
  `GpxUtils.distance_between_points` enters the scan only through a
  parameter `dist : α → α → R`.  Python float values are modelled by an
  arbitrary linearly ordered additive commutative monoid `R` (the scan only
  ever adds distances and compares them), so every theorem below holds in
  particular for `R = ℚ` or `R = ℝ`; concrete witnesses instantiate
  `R = ℤ`.
* Python list indexing `points[k]` becomes `idx pts k` (`List.getD` with a
  default; every index the scan uses is in bounds).
* The inner `for j in range(i + 1, n)` loop of `process_segment_static` is a
  structurally recursive function on a fuel argument; the fuel is set to
  `pts.length`, which is never exhausted because the loop runs at most
  `pts.length - (i + 1)` iterations before `j < n` fails.
* The `ProcessPoolExecutor` / `as_completed` fan-out of
  `extract_bad_segments` is modelled by an explicit completion order
  `order : List ℕ` (a permutation of the segment indices); a worker task
  that raises is an `Except.error` outcome, driven by the `fails` parameter.
-/

variable {α : Type} [Inhabited α] {R : Type} [AddCommMonoid R] [LinearOrder R]

/-- Python list indexing `points[k]`; every use in the scan is in bounds. -/
def idx (pts : List α) (k : ℕ) : α :=
  pts.getD k default

/-- Overlap test of `process_segment_static`:
`any(max(i, r1) <= min(j, r2) for r1, r2 in bad_ranges)`. -/
def overlapsAny (i j : ℕ) (ranges : List (ℕ × ℕ)) : Bool :=
  ranges.any fun r => decide (max i r.1 ≤ min j r.2)

/-- Inner loop `for j in range(i + 1, n)` of `process_segment_static`:
`total` is the running `total_distance`, `ranges` the `bad_ranges` accepted
so far in this segment.  Returns the end index `j` recorded for start `i`,
if any.  The branches mirror the source: accumulate the consecutive-point
distance, `break` when the accumulated length exceeds the maximum, on a
closure that overlaps an accepted range `continue`, on a closure with no
overlap record and `break`. -/
def scanFromFuel (dist : α → α → R) (cls minL maxL : R) (pts : List α)
    (i : ℕ) : ℕ → ℕ → R → List (ℕ × ℕ) → Option ℕ
  | 0, _, _, _ => none
  | fuel + 1, j, total, ranges =>
    if j < pts.length then
      if maxL < total + dist (idx pts (j - 1)) (idx pts j) then none
      else if dist (idx pts i) (idx pts j) < cls ∧
          minL < total + dist (idx pts (j - 1)) (idx pts j) then
        if overlapsAny i j ranges then
          scanFromFuel dist cls minL maxL pts i fuel (j + 1)
            (total + dist (idx pts (j - 1)) (idx pts j)) ranges
        else some j
      else
        scanFromFuel dist cls minL maxL pts i fuel (j + 1)
          (total + dist (idx pts (j - 1)) (idx pts j)) ranges
    else none

/-- The inner loop as entered by the outer loop: `j` starts at `i + 1` with
`total_distance = 0.0` and the `bad_ranges` accepted so far. -/
def scanStart (dist : α → α → R) (cls minL maxL : R) (pts : List α) (i : ℕ)
    (ranges : List (ℕ × ℕ)) : Option ℕ :=
  scanFromFuel dist cls minL maxL pts i pts.length (i + 1) 0 ranges

/-- Python slice `points[i : j + 1]`, the point content of the GPX value
built by `GpxUtils.create_gpx i j points` (which wraps this slice in a
one-track, one-segment GPX object). -/
def slice (pts : List α) (i j : ℕ) : List α :=
  (pts.drop i).take (j + 1 - i)

/-- One iteration of the outer `for i in range(n)` loop of
`process_segment_static`: the state is `(bad_gpx_list, bad_ranges)`. -/
def stepI (dist : α → α → R) (cls minL maxL : R) (pts : List α)
    (st : List (List α) × List (ℕ × ℕ)) (i : ℕ) :
    List (List α) × List (ℕ × ℕ) :=
  match scanStart dist cls minL maxL pts i st.2 with
  | none => st
  | some j => (st.1 ++ [slice pts i j], st.2 ++ [(i, j)])

/-- `TrackCutter.process_segment_static`: scans one segment's point list and
returns `(bad_gpx_list, bad_ranges)`. -/
def process_segment_static (dist : α → α → R) (cls minL maxL : R)
    (pts : List α) : List (List α) × List (ℕ × ℕ) :=
  (List.range pts.length).foldl (stepI dist cls minL maxL pts) ([], [])

/-- Accumulated consecutive-point path length over the index range `(s, e]`:
the value the running `total_distance` has right after processing `j = e`. -/
def accLen (dist : α → α → R) (pts : List α) (s e : ℕ) : R :=
  ((List.range (e - s)).map fun t => dist (idx pts (s + t)) (idx pts (s + t + 1))).sum

/-- The closure test the scan applies at indices `(s, e)` relative to the
ranges `prev` already accepted in this segment: start and end point closer
than the closure threshold, accumulated path length above the minimum, and
no index overlap with an accepted range. -/
abbrev closesAt (dist : α → α → R) (cls minL : R) (pts : List α)
    (prev : List (ℕ × ℕ)) (s e : ℕ) : Prop :=
  dist (idx pts s) (idx pts e) < cls ∧ minL < accLen dist pts s e ∧
    overlapsAny s e prev = false

/-- Everything the scan guarantees for one accepted range `r`, relative to
the ranges `prev` accepted before it in the same segment. -/
abbrev Good (dist : α → α → R) (cls minL maxL : R) (pts : List α)
    (prev : List (ℕ × ℕ)) (r : ℕ × ℕ) : Prop :=
  r.1 < r.2 ∧ r.2 < pts.length ∧
    closesAt dist cls minL pts prev r.1 r.2 ∧
    accLen dist pts r.1 r.2 ≤ maxL ∧
    ∀ j, r.1 < j → j < r.2 → ¬ closesAt dist cls minL pts prev r.1 j

/-- Invariant of the outer loop of `process_segment_static` after the
iterations for all start indices below `i`. -/
abbrev ScanInv (dist : α → α → R) (cls minL maxL : R) (pts : List α) (i : ℕ)
    (st : List (List α) × List (ℕ × ℕ)) : Prop :=
  st.1 = st.2.map (fun r => slice pts r.1 r.2) ∧
    List.Pairwise (fun a b : ℕ × ℕ => a.1 < b.1) st.2 ∧
    (∀ r ∈ st.2, r.1 < i) ∧
    ∀ (k : ℕ) (hk : k < st.2.length),
      Good dist cls minL maxL pts (st.2.take k) (st.2.get ⟨k, hk⟩)

/-- Outcome of one worker task of `extract_bad_segments`: the task for
segment `k` either returns `process_segment_static` on that segment's point
list or raises (modelled by the `fails` parameter). -/
def runTask (dist : α → α → R) (cls minL maxL : R) (segs : List (List α))
    (fails : ℕ → Bool) (k : ℕ) :
    Except Unit (List (List α) × List (ℕ × ℕ)) :=
  if fails k then Except.error ()
  else Except.ok (process_segment_static dist cls minL maxL (segs.getD k []))

/-- The `for future in as_completed(futures): try ... except` aggregation
loop of `extract_bad_segments`: `order` is the completion order of the
futures; a task that raised is caught and contributes nothing. -/
def gather (dist : α → α → R) (cls minL maxL : R) (segs : List (List α))
    (fails : ℕ → Bool) (order : List ℕ) :
    List (List α) × List (ℕ × ℕ) :=
  order.foldl
    (fun acc k =>
      match runTask dist cls minL maxL segs fails k with
      | Except.ok r => (acc.1 ++ r.1, acc.2 ++ r.2)
      | Except.error _ => acc)
    ([], [])

/-- `TrackCutter.extract_bad_segments` with no task failures: the first
component is the returned `bad_gpx_list` (each element the point content of
one candidate), the second is `bad_ranges` as stored in `self.cut_ranges`. -/
def extract_bad_segments (dist : α → α → R) (cls minL maxL : R)
    (segs : List (List α)) (order : List ℕ) :
    List (List α) × List (ℕ × ℕ) :=
  gather dist cls minL maxL segs (fun _ => false) order

/-- Candidates of `extract_bad_segments`, instrumented with the index of the
segment each candidate was gathered from: `(segmentIndex, startIndex,
endIndex)`.  This is the provenance needed to state the global ordering
property; the untagged code output is the same list without the first
component. -/
def extract_tagged (dist : α → α → R) (cls minL maxL : R)
    (segs : List (List α)) (order : List ℕ) : List (ℕ × ℕ × ℕ) :=
  (order.map fun k =>
    ((process_segment_static dist cls minL maxL (segs.getD k [])).2).map
      fun r => (k, r.1, r.2)).flatten

/-- Ascending lexicographic order on `(segmentIndex, startIndex)`. -/
abbrev candLex (a b : ℕ × ℕ × ℕ) : Prop :=
  a.1 < b.1 ∨ (a.1 = b.1 ∧ a.2.1 < b.2.1)

/-- A GPX track point as `cut_segments` sees it. -/
structure TrackPoint where
  latitude : ℚ
  longitude : ℚ
  elevation : Option ℚ
deriving DecidableEq

/-- The identity triple `(point.latitude, point.longitude, point.elevation)`
added to the `bad_points` set. -/
def triple (p : TrackPoint) : ℚ × ℚ × Option ℚ :=
  (p.latitude, p.longitude, p.elevation)

/-- A GPX value as traversed by `cut_segments`: tracks, then segments, then
points. -/
abbrev GPXData : Type := List (List (List TrackPoint))

/-- All identity triples of the points of one GPX value (the nested
`for track ... for segment ... for point ...` loop). -/
def gpxTriples (g : GPXData) : List (ℚ × ℚ × Option ℚ) :=
  (g.flatten.flatten).map triple

/-- The `bad_points` exclusion set of `cut_segments` (a Python set of
identity triples; modelled as a list, membership being all the code uses).
Indexes are interpreted 1-based via `i = index - 1`; an `i` outside
`[0, len(bad_segments))` is silently skipped. -/
def collect_bad_points (bad : List GPXData) (idxs : List ℕ) :
    List (ℚ × ℚ × Option ℚ) :=
  (idxs.map fun index =>
    if 1 ≤ index ∧ index - 1 < bad.length then
      gpxTriples (bad.getD (index - 1) [])
    else []).flatten

/-- `TrackCutter.cut_segments`.  The source mutates `gpx` in place
(`segment.points = [...]`) and returns the same object, so this value is
both the returned track and the post-call state of the argument. -/
def cut_segments (gpx : GPXData) (bad : List GPXData) (idxs : List ℕ) :
    GPXData :=
  gpx.map fun tr => tr.map fun seg =>
    seg.filter fun pt => decide (triple pt ∉ collect_bad_points bad idxs)

/-- `IO.input_bad_segments`: mode 1 removes exactly the selected candidates
(the selection is returned unchanged); mode 2 (remove all except selected,
i.e. keep only selected) returns
`[seg for seg in range(len_bad_segments) if seg not in selected]`. -/
def input_bad_segments (len_bad_segments : ℕ) (mode : ℕ)
    (selected : List ℕ) : List ℕ :=
  if mode = 1 then selected
  else (List.range len_bad_segments).filter fun seg => decide (seg ∉ selected)

/-- Modelled from the spec: the complement of a selection over the full
1-based candidate index range `[1, candidateCount]` (spec section 4.4 and
section 6); used to compare the code's keep-only-selected mode against the
complement the spec prescribes. -/
def complement_spec (candidateCount : ℕ) (selected : List ℕ) : List ℕ :=
  ((List.range candidateCount).map fun k => k + 1).filter
    fun k => decide (k ∉ selected)

/-- A triple occurs among the points of some selected candidate: some
selected 1-based ordinal is in range and its candidate contains the
triple. -/
abbrev selectedBadTriple (bad : List GPXData) (idxs : List ℕ)
    (x : ℚ × ℚ × Option ℚ) : Prop :=
  ∃ index, index ∈ idxs ∧ 1 ≤ index ∧ index - 1 < bad.length ∧
    x ∈ gpxTriples (bad.getD (index - 1) [])

/-- Concrete one-dimensional distance used to exercise the scan on concrete
inputs (the scan itself is proved correct for every `dist`). -/
def zdist (a b : ℤ) : ℤ :=
  if a ≤ b then b - a else a - b

/-- Concrete segment: walks out and returns exactly to its start. -/
def seg0 : List ℤ := [0, 2, 0]

/-- Concrete segment: a second, disjoint out-and-back loop. -/
def seg1 : List ℤ := [10, 12, 10]

/-- Concrete GPX point. -/
def pt0 : TrackPoint := ⟨1, 2, some 3⟩

/-- Concrete one-track, one-segment, one-point GPX value. -/
def gpx0 : GPXData := [[[pt0]]]

/-- Concrete candidate list with a single candidate containing `pt0`. -/
def bad0 : List GPXData := [[[[pt0]]]]

example : (process_segment_static zdist 1 1 10 seg0).2 = [(0, 2)] := by decide

example : (process_segment_static zdist 1 1 10 seg1).2 = [(0, 2)] := by decide

example :
    extract_tagged zdist 1 1 10 [seg0, seg1] [1, 0] =
      [(1, 0, 2), (0, 0, 2)] := by decide

example : cut_segments gpx0 bad0 [1] = [[[]]] := by decide

example : cut_segments gpx0 bad0 (input_bad_segments 1 2 []) = [[[pt0]]] := by
  decide

example : complement_spec 1 [] = [1] := by decide

/-- The accumulated length over the empty range `(s, s]` is zero. -/
theorem accLen_self (dist : α → α → R) (pts : List α) (s : ℕ) :
    accLen dist pts s s = 0 := by
  simp [accLen]

/-- Extending the accumulated length by one step adds the consecutive-point
distance, exactly as the running `total_distance` does. -/
theorem accLen_succ (dist : α → α → R) (pts : List α) {s e : ℕ} (h : s ≤ e) :
    accLen dist pts s (e + 1) =
      accLen dist pts s e + dist (idx pts e) (idx pts (e + 1)) := by
  have h1 : e + 1 - s = (e - s) + 1 := by omega
  have h2 : s + (e - s) = e := by omega
  rw [accLen, h1, List.range_succ, List.map_append, List.sum_append, accLen]
  simp [h2]

/-- Soundness of the inner loop: when the walk from start `i` (currently at
`j`, running total equal to the accumulated length up to `j - 1`) records an
end index `e`, then `e` is in bounds, the closure test holds at `e`, the
accumulated length is within the maximum, and no strictly earlier reachable
`j'` passed the closure test without overlapping an accepted range. -/
theorem scanFromFuel_some {dist : α → α → R} {cls minL maxL : R}
    {pts : List α} {i : ℕ} :
    ∀ (fuel j : ℕ) (total : R) (ranges : List (ℕ × ℕ)) (e : ℕ),
      scanFromFuel dist cls minL maxL pts i fuel j total ranges = some e →
      i + 1 ≤ j →
      total = accLen dist pts i (j - 1) →
      j ≤ e ∧ e < pts.length ∧
        closesAt dist cls minL pts ranges i e ∧
        accLen dist pts i e ≤ maxL ∧
        ∀ j', j ≤ j' → j' < e → ¬ closesAt dist cls minL pts ranges i j' := by
  intro fuel
  induction fuel with
  | zero =>
    intro j total ranges e h _ _
    simp [scanFromFuel] at h
  | succ fuel ih =>
    intro j total ranges e h hij htot
    simp only [scanFromFuel] at h
    by_cases hj : j < pts.length
    · rw [if_pos hj] at h
      have hstep : total + dist (idx pts (j - 1)) (idx pts j) =
          accLen dist pts i j := by
        have h1 : i ≤ j - 1 := by omega
        have h2 : j - 1 + 1 = j := by omega
        have h3 := accLen_succ dist pts h1
        rw [h2] at h3
        rw [htot, ← h3]
      by_cases hmax : maxL < total + dist (idx pts (j - 1)) (idx pts j)
      · rw [if_pos hmax] at h
        simp at h
      · rw [if_neg hmax] at h
        by_cases hcl : dist (idx pts i) (idx pts j) < cls ∧
            minL < total + dist (idx pts (j - 1)) (idx pts j)
        · rw [if_pos hcl] at h
          by_cases hov : overlapsAny i j ranges = true
          · rw [if_pos hov] at h
            obtain ⟨h1, h2, h3, h4, h5⟩ := ih (j + 1)
              (total + dist (idx pts (j - 1)) (idx pts j)) ranges e h
              (by omega) (by simpa using hstep)
            refine ⟨by omega, h2, h3, h4, ?_⟩
            intro j' hj1 hj2
            rcases Nat.eq_or_lt_of_le hj1 with hj' | hj'
            · subst hj'
              intro hc
              exact absurd hc.2.2 (by simp [hov])
            · exact h5 j' (by omega) hj2
          · rw [if_neg hov] at h
            have he : e = j := by simpa using h.symm
            subst he
            refine ⟨le_refl _, hj, ⟨hcl.1, ?_, ?_⟩, ?_, ?_⟩
            · rw [← hstep]; exact hcl.2
            · simpa using hov
            · rw [← hstep]; exact not_lt.mp hmax
            · intro j' hj1 hj2; omega
        · rw [if_neg hcl] at h
          obtain ⟨h1, h2, h3, h4, h5⟩ := ih (j + 1)
            (total + dist (idx pts (j - 1)) (idx pts j)) ranges e h
            (by omega) (by simpa using hstep)
          refine ⟨by omega, h2, h3, h4, ?_⟩
          intro j' hj1 hj2
          rcases Nat.eq_or_lt_of_le hj1 with hj' | hj'
          · subst hj'
            intro hc
            exact hcl ⟨hc.1, by rw [hstep]; exact hc.2.1⟩
          · exact h5 j' (by omega) hj2
    · rw [if_neg hj] at h
      simp at h

/-- With a maximum loop length below the minimum, the inner loop can never
record anything: acceptance would need the running total to be
simultaneously at most the maximum and above the minimum. -/
theorem scanFromFuel_none_of_max_lt_min {dist : α → α → R} {cls minL maxL : R}
    {pts : List α} {i : ℕ} (hml : maxL < minL) :
    ∀ (fuel j : ℕ) (total : R) (ranges : List (ℕ × ℕ)),
      scanFromFuel dist cls minL maxL pts i fuel j total ranges = none := by
  intro fuel
  induction fuel with
  | zero =>
    intro j total ranges
    simp [scanFromFuel]
  | succ fuel ih =>
    intro j total ranges
    simp only [scanFromFuel]
    by_cases hj : j < pts.length
    · rw [if_pos hj]
      by_cases hmax : maxL < total + dist (idx pts (j - 1)) (idx pts j)
      · rw [if_pos hmax]
      · rw [if_neg hmax]
        by_cases hcl : dist (idx pts i) (idx pts j) < cls ∧
            minL < total + dist (idx pts (j - 1)) (idx pts j)
        · exact absurd (lt_of_lt_of_le (hml.trans hcl.2) (not_lt.mp hmax))
            (lt_irrefl _)
        · rw [if_neg hcl]
          exact ih (j + 1) _ ranges
    · rw [if_neg hj]

/-- The outer-loop invariant is preserved by one iteration of
`for i in range(n)`. -/
theorem stepI_inv {dist : α → α → R} {cls minL maxL : R} {pts : List α}
    {i : ℕ} {st : List (List α) × List (ℕ × ℕ)}
    (hinv : ScanInv dist cls minL maxL pts i st) :
    ScanInv dist cls minL maxL pts (i + 1)
      (stepI dist cls minL maxL pts st i) := by
  obtain ⟨hmap, hpw, hlt, hgood⟩ := hinv
  unfold stepI
  cases hscan : scanStart dist cls minL maxL pts i st.2 with
  | none =>
    exact ⟨hmap, hpw, fun r hr => Nat.lt_succ_of_lt (hlt r hr), hgood⟩
  | some e =>
    unfold scanStart at hscan
    obtain ⟨h1, h2, h3, h4, h5⟩ :=
      scanFromFuel_some pts.length (i + 1) 0 st.2 e hscan (le_refl _)
        (by simp [accLen_self])
    refine ⟨?_, ?_, ?_, ?_⟩
    · simp [hmap]
    · refine List.pairwise_append.mpr ⟨hpw, by simp, ?_⟩
      intro a ha b hb
      rw [List.mem_singleton] at hb
      subst hb
      exact hlt a ha
    · intro r hr
      rcases List.mem_append.mp hr with hr | hr
      · exact Nat.lt_succ_of_lt (hlt r hr)
      · rw [List.mem_singleton] at hr
        subst hr
        omega
    · intro k hk
      simp only [List.length_append, List.length_singleton] at hk
      by_cases hk' : k < st.2.length
      · have hget : (st.2 ++ [(i, e)]).get ⟨k, by simp; omega⟩ =
            st.2.get ⟨k, hk'⟩ := by
          simp only [List.get_eq_getElem]
          exact List.getElem_append_left hk'
        have htake : (st.2 ++ [(i, e)]).take k = st.2.take k :=
          List.take_append_of_le_length (le_of_lt hk')
        rw [hget, htake]
        exact hgood k hk'
      · have hke : k = st.2.length := by omega
        subst hke
        have hget : (st.2 ++ [(i, e)]).get ⟨st.2.length, by simp⟩ = (i, e) := by
          simp only [List.get_eq_getElem]
          exact List.getElem_concat_length st.2 (i, e) _ rfl _
        have htake : (st.2 ++ [(i, e)]).take st.2.length = st.2 :=
          List.take_left st.2 _
        rw [hget, htake]
        exact ⟨by omega, h2, h3, h4, fun j hj1 hj2 => h5 j (by omega) hj2⟩

/-- The outer-loop invariant holds for the final state of
`process_segment_static`. -/
theorem process_inv (dist : α → α → R) (cls minL maxL : R) (pts : List α) :
    ScanInv dist cls minL maxL pts pts.length
      (process_segment_static dist cls minL maxL pts) := by
  have key : ∀ m : ℕ, ScanInv dist cls minL maxL pts m
      ((List.range m).foldl (stepI dist cls minL maxL pts) ([], [])) := by
    intro m
    induction m with
    | zero =>
      refine ⟨rfl, List.Pairwise.nil, ?_, ?_⟩
      · intro r hr
        simp at hr
      · intro k hk
        simp at hk
    | succ m ih =>
      rw [List.range_succ, List.foldl_append, List.foldl_cons, List.foldl_nil]
      exact stepI_inv ih
  exact key pts.length

/-- C4: every range `(start, end)` accepted by the scan
`process_segment_static` satisfies the closure-distance bound, and its
accumulated consecutive-point path length lies strictly above the minimum
and at most the maximum loop length. -/
theorem scan_range_valid {dist : α → α → R} {cls minL maxL : R}
    {pts : List α} {r : ℕ × ℕ}
    (hr : r ∈ (process_segment_static dist cls minL maxL pts).2) :
    dist (idx pts r.1) (idx pts r.2) < cls ∧
      minL < accLen dist pts r.1 r.2 ∧
      accLen dist pts r.1 r.2 ≤ maxL := by
  obtain ⟨-, -, -, hgood⟩ := process_inv dist cls minL maxL pts
  obtain ⟨k, hk, hget⟩ := List.getElem_of_mem hr
  have hg := hgood k hk
  rw [List.get_eq_getElem, hget] at hg
  exact ⟨hg.2.2.1.1, hg.2.2.1.2.1, hg.2.2.2.1⟩

/-- Witness for `scan_range_valid`: the out-and-back segment `seg0` yields
the accepted range `(0, 2)`, whose closing distance and accumulated length
satisfy the three bounds. -/
theorem scan_range_valid_witness :
    ((0, 2) ∈ (process_segment_static zdist 1 1 10 seg0).2) ∧
      (zdist (idx seg0 0) (idx seg0 2) < 1 ∧
        1 < accLen zdist seg0 0 2 ∧ accLen zdist seg0 0 2 ≤ 10) :=
  ⟨by decide, @scan_range_valid ℤ _ ℤ _ _ zdist 1 1 10 seg0 (0, 2) (by decide)⟩

/-- C5: within one segment, no two ranges accepted by the scan share any
point index. -/
theorem scan_ranges_disjoint (dist : α → α → R) (cls minL maxL : R)
    (pts : List α) :
    List.Pairwise
      (fun r1 r2 : ℕ × ℕ => ∀ x : ℕ,
        ¬(r1.1 ≤ x ∧ x ≤ r1.2 ∧ r2.1 ≤ x ∧ x ≤ r2.2))
      (process_segment_static dist cls minL maxL pts).2 := by
  obtain ⟨-, -, -, hgood⟩ := process_inv dist cls minL maxL pts
  rw [List.pairwise_iff_getElem]
  intro a b ha hb hab x hx
  have hC := (hgood b hb).2.2.1.2.2
  rw [List.get_eq_getElem] at hC
  unfold overlapsAny at hC
  rw [List.any_eq_false] at hC
  have hmem : (process_segment_static dist cls minL maxL pts).2[a] ∈
      (process_segment_static dist cls minL maxL pts).2.take b := by
    have h1 : a < ((process_segment_static dist cls minL maxL pts).2.take b).length := by
      rw [List.length_take]
      omega
    have h2 : ((process_segment_static dist cls minL maxL pts).2.take b)[a] =
        (process_segment_static dist cls minL maxL pts).2[a] :=
      List.getElem_take _
    rw [← h2]
    exact List.getElem_mem h1
  have hno := hC _ hmem
  simp only [decide_eq_true_eq] at hno
  omega

/-- C6: the scan accepts at most one range per start index (starts are
strictly increasing in discovery order), each accepted range's end is the
first reached index at which the closure test passes without overlapping a
previously accepted range, and no earlier such index exists (an overlapping
closure is skipped without stopping the walk). -/
theorem scan_greedy_first_match {dist : α → α → R} {cls minL maxL : R}
    {pts : List α} {rs : List (ℕ × ℕ)}
    (hrs : rs = (process_segment_static dist cls minL maxL pts).2) :
    List.Pairwise (fun a b : ℕ × ℕ => a.1 < b.1) rs ∧
      ∀ (k : ℕ) (hk : k < rs.length),
        (rs.get ⟨k, hk⟩).1 < (rs.get ⟨k, hk⟩).2 ∧
          closesAt dist cls minL pts (rs.take k)
            (rs.get ⟨k, hk⟩).1 (rs.get ⟨k, hk⟩).2 ∧
          ∀ j, (rs.get ⟨k, hk⟩).1 < j → j < (rs.get ⟨k, hk⟩).2 →
            ¬ closesAt dist cls minL pts (rs.take k) (rs.get ⟨k, hk⟩).1 j := by
  subst hrs
  obtain ⟨-, hpw, -, hgood⟩ := process_inv dist cls minL maxL pts
  exact ⟨hpw, fun k hk =>
    ⟨(hgood k hk).1, (hgood k hk).2.2.1, (hgood k hk).2.2.2.2⟩⟩

/-- Witness for `scan_greedy_first_match`: on `seg0` the scan records
exactly `(0, 2)`; the closure test holds at its end index `2` and fails at
the intermediate index `1`. -/
theorem scan_greedy_first_match_witness :
    ([((0 : ℕ), (2 : ℕ))] = (process_segment_static zdist 1 1 10 seg0).2) ∧
      ((0 : ℕ) < 2 ∧ closesAt zdist 1 1 seg0 [] 0 2 ∧
        ¬ closesAt zdist 1 1 seg0 [] 0 1) := by
  have hrs : ([((0 : ℕ), (2 : ℕ))] : List (ℕ × ℕ)) =
      (process_segment_static zdist 1 1 10 seg0).2 := by decide
  have h := scan_greedy_first_match hrs
  have h0 := h.2 0 (by decide)
  exact ⟨hrs, h0.1, h0.2.1, h0.2.2 1 (by decide) (by decide)⟩

/-- C10: a segment with fewer than two points, or a maximum loop length
strictly below the minimum, yields no candidates; the scan returns the
empty result normally rather than failing. -/
theorem scan_degenerate_empty {dist : α → α → R} {cls minL maxL : R}
    {pts : List α} (h : pts.length < 2 ∨ maxL < minL) :
    process_segment_static dist cls minL maxL pts = ([], []) := by
  rcases h with h | h
  · match pts, h with
    | [], _ => rfl
    | [a], _ => rfl
  · unfold process_segment_static
    have hstep : ∀ (st : List (List α) × List (ℕ × ℕ)) (i : ℕ),
        stepI dist cls minL maxL pts st i = st := by
      intro st i
      unfold stepI scanStart
      rw [scanFromFuel_none_of_max_lt_min h]
    have hfold : ∀ l : List ℕ,
        l.foldl (stepI dist cls minL maxL pts) ([], []) = ([], []) := by
      intro l
      induction l with
      | nil => rfl
      | cons x xs ih =>
        rw [List.foldl_cons, hstep]
        exact ih
    exact hfold _

/-- Witness for `scan_degenerate_empty`: a one-point segment produces no
candidates. -/
theorem scan_degenerate_empty_witness :
    (([(42 : ℤ)] : List ℤ).length < 2 ∨ (10 : ℤ) < 1) ∧
      process_segment_static zdist 1 1 10 [(42 : ℤ)] = ([], []) :=
  ⟨Or.inl (by decide), scan_degenerate_empty (Or.inl (by decide))⟩

/-- The aggregation loop of `extract_bad_segments` concatenates, in
completion order, each task's `bad_gpx_list` and `bad_ranges`, a failed task
contributing nothing. -/
theorem gather_foldl {dist : α → α → R} {cls minL maxL : R}
    {segs : List (List α)} {fails : ℕ → Bool} :
    ∀ (order : List ℕ) (acc : List (List α) × List (ℕ × ℕ)),
      order.foldl
        (fun acc k =>
          match runTask dist cls minL maxL segs fails k with
          | Except.ok r => (acc.1 ++ r.1, acc.2 ++ r.2)
          | Except.error _ => acc) acc =
        (acc.1 ++ (order.map fun k =>
            if fails k then []
            else (process_segment_static dist cls minL maxL (segs.getD k [])).1).flatten,
          acc.2 ++ (order.map fun k =>
            if fails k then []
            else (process_segment_static dist cls minL maxL (segs.getD k [])).2).flatten) := by
  intro order
  induction order with
  | nil =>
    intro acc
    simp
  | cons k ks ih =>
    intro acc
    rw [List.foldl_cons, ih]
    simp only [List.map_cons, List.flatten_cons, runTask]
    by_cases hf : fails k = true
    · rw [if_pos hf]
      simp [hf, List.append_assoc]
    · rw [if_neg hf]
      simp [hf, List.append_assoc]

/-- Closed form of `gather`: the flattened per-task results in completion
order. -/
theorem gather_eq {dist : α → α → R} {cls minL maxL : R}
    {segs : List (List α)} {fails : ℕ → Bool} (order : List ℕ) :
    gather dist cls minL maxL segs fails order =
      ((order.map fun k =>
          if fails k then []
          else (process_segment_static dist cls minL maxL (segs.getD k [])).1).flatten,
        (order.map fun k =>
          if fails k then []
          else (process_segment_static dist cls minL maxL (segs.getD k [])).2).flatten) := by
  unfold gather
  rw [gather_foldl]
  simp

/-- Dropping the empty contributions of failed tasks is the same as
filtering the failed tasks out of the completion order. -/
theorem flatten_map_if {β : Type} (fails : ℕ → Bool) (g : ℕ → List β) :
    ∀ order : List ℕ,
      (order.map fun k => if fails k then [] else g k).flatten =
        ((order.filter fun k => !(fails k)).map g).flatten := by
  intro order
  induction order with
  | nil => rfl
  | cons k ks ih =>
    by_cases hf : fails k = true
    · simp [List.filter_cons, hf, ih]
    · simp [List.filter_cons, hf, ih]

/-- C9: if the scan task of one segment raises, detection still completes
(`gather` is a total function), the failing segment contributes zero
candidates, and every other segment's candidates appear exactly as in a
run without the failure gathered in the same completion order. -/
theorem gather_failure_isolation (dist : α → α → R) (cls minL maxL : R)
    (segs : List (List α)) (fails : ℕ → Bool) (order : List ℕ) :
    gather dist cls minL maxL segs fails order =
      extract_bad_segments dist cls minL maxL segs
        (order.filter fun k => !(fails k)) := by
  unfold extract_bad_segments
  rw [gather_eq, gather_eq, Prod.mk.injEq]
  refine ⟨?_, ?_⟩ <;>
    · rw [flatten_map_if]
      simp

/-- C2 amended: detection's output is a function of the completion order
alone, and any two completion orders that are permutations of each other
(as all completions of the same submitted batch are) yield candidate lists
and range lists that are permutations of each other. -/
theorem extract_perm_of_order_perm {dist : α → α → R} {cls minL maxL : R}
    {segs : List (List α)} {o1 o2 : List ℕ} (h : o1.Perm o2) :
    (extract_bad_segments dist cls minL maxL segs o1).1.Perm
        (extract_bad_segments dist cls minL maxL segs o2).1 ∧
      (extract_bad_segments dist cls minL maxL segs o1).2.Perm
        (extract_bad_segments dist cls minL maxL segs o2).2 := by
  unfold extract_bad_segments
  rw [gather_eq, gather_eq]
  exact ⟨(h.map _).flatten, (h.map _).flatten⟩

/-- Witness for `extract_perm_of_order_perm` at a concrete two-segment
track and the two possible completion orders. -/
theorem extract_perm_of_order_perm_witness :
    (extract_bad_segments zdist 1 1 10 [seg0, seg1] [0, 1]).1.Perm
        (extract_bad_segments zdist 1 1 10 [seg0, seg1] [1, 0]).1 ∧
      (extract_bad_segments zdist 1 1 10 [seg0, seg1] [0, 1]).2.Perm
        (extract_bad_segments zdist 1 1 10 [seg0, seg1] [1, 0]).2 :=
  extract_perm_of_order_perm (by decide)

/-- C2 counterexample: on a two-segment track in which both segments carry
a candidate, the two completion orders of the same batch produce different
outputs, so two runs of detection need not return identical lists. -/
theorem extract_not_deterministic :
    (([0, 1] : List ℕ).Perm (List.range 2)) ∧
      (([1, 0] : List ℕ).Perm (List.range 2)) ∧
      extract_bad_segments zdist 1 1 10 [seg0, seg1] [0, 1] ≠
        extract_bad_segments zdist 1 1 10 [seg0, seg1] [1, 0] :=
  ⟨by decide, by decide, by decide⟩

/-- C1 amended: within one segment candidates always appear in ascending
start-index order (for every completion order of the batch), and the global
list is sorted by `(segmentIndex, startIndex)` when the completion order
coincides with the submission order. -/
theorem extract_tagged_sorted {dist : α → α → R} {cls minL maxL : R}
    {segs : List (List α)} {order : List ℕ}
    (h : order.Perm (List.range segs.length)) :
    List.Pairwise (fun a b : ℕ × ℕ × ℕ => a.1 = b.1 → a.2.1 < b.2.1)
        (extract_tagged dist cls minL maxL segs order) ∧
      List.Pairwise candLex
        (extract_tagged dist cls minL maxL segs (List.range segs.length)) := by
  have htag : ∀ (k : ℕ) (x : ℕ × ℕ × ℕ),
      x ∈ ((process_segment_static dist cls minL maxL (segs.getD k [])).2).map
        (fun r => (k, r.1, r.2)) → x.1 = k := by
    intro k x hx
    obtain ⟨r, -, rfl⟩ := List.mem_map.mp hx
    rfl
  have hblock : ∀ k : ℕ,
      List.Pairwise (fun a b : ℕ × ℕ × ℕ => a.2.1 < b.2.1)
        (((process_segment_static dist cls minL maxL (segs.getD k [])).2).map
          (fun r => (k, r.1, r.2))) := by
    intro k
    obtain ⟨-, hpw, -, -⟩ := process_inv dist cls minL maxL (segs.getD k [])
    exact List.pairwise_map.mpr (hpw.imp fun hab => hab)
  constructor
  · unfold extract_tagged
    rw [List.pairwise_flatten]
    constructor
    · intro l hl
      obtain ⟨k, -, rfl⟩ := List.mem_map.mp hl
      refine (hblock k).imp ?_
      intro a b hab _
      exact hab
    · rw [List.pairwise_map]
      have hnd : order.Nodup := h.nodup_iff.mpr (List.nodup_range _)
      refine hnd.imp ?_
      intro k1 k2 hne x hx y hy hxy
      exact absurd (by rw [← htag k1 x hx, ← htag k2 y hy]; exact hxy) hne
  · unfold extract_tagged
    rw [List.pairwise_flatten]
    constructor
    · intro l hl
      obtain ⟨k, -, rfl⟩ := List.mem_map.mp hl
      obtain ⟨-, hpw, -, -⟩ := process_inv dist cls minL maxL (segs.getD k [])
      exact List.pairwise_map.mpr (hpw.imp fun hab => Or.inr ⟨rfl, hab⟩)
    · rw [List.pairwise_map]
      refine (List.pairwise_lt_range _).imp ?_
      intro k1 k2 hlt x hx y hy
      exact Or.inl (by rw [htag k1 x hx, htag k2 y hy]; exact hlt)

/-- C1 counterexample: with two candidate-bearing segments, the completion
order that finishes segment 1 before segment 0 yields a candidate list that
is not sorted by `(segmentIndex, startIndex)`. -/
theorem extract_order_dependent :
    (([1, 0] : List ℕ).Perm (List.range 2)) ∧
      ¬ List.Pairwise candLex (extract_tagged zdist 1 1 10 [seg0, seg1] [1, 0]) := by
  refine ⟨by decide, ?_⟩
  intro hpw
  rw [show extract_tagged zdist 1 1 10 [seg0, seg1] [1, 0] =
      [(1, 0, 2), (0, 0, 2)] from by decide] at hpw
  exact absurd ((List.pairwise_cons.mp hpw).1 (0, 0, 2) (by simp)) (by decide)

/-- Witness for `extract_tagged_sorted` at a concrete two-segment track
and the reversed completion order. -/
theorem extract_tagged_sorted_witness :
    (([1, 0] : List ℕ).Perm
        (List.range ([seg0, seg1] : List (List ℤ)).length)) ∧
      List.Pairwise (fun a b : ℕ × ℕ × ℕ => a.1 = b.1 → a.2.1 < b.2.1)
        (extract_tagged zdist 1 1 10 [seg0, seg1] [1, 0]) :=
  ⟨by decide, (extract_tagged_sorted (by decide)).1⟩

/-- Membership in the `bad_points` exclusion set is exactly occurrence of
the identity triple among the points of some selected, in-range
candidate. -/
theorem mem_collect_bad_points {bad : List GPXData} {idxs : List ℕ}
    {x : ℚ × ℚ × Option ℚ} :
    x ∈ collect_bad_points bad idxs ↔ selectedBadTriple bad idxs x := by
  constructor
  · intro hx
    unfold collect_bad_points at hx
    rw [List.mem_flatten] at hx
    obtain ⟨l, hl, hxl⟩ := hx
    rw [List.mem_map] at hl
    obtain ⟨index, hidx, rfl⟩ := hl
    by_cases hc : 1 ≤ index ∧ index - 1 < bad.length
    · rw [if_pos hc] at hxl
      exact ⟨index, hidx, hc.1, hc.2, hxl⟩
    · rw [if_neg hc] at hxl
      simp at hxl
  · rintro ⟨index, hidx, h1, h2, hx⟩
    unfold collect_bad_points
    rw [List.mem_flatten]
    refine ⟨_, List.mem_map.mpr ⟨index, hidx, rfl⟩, ?_⟩
    rw [if_pos ⟨h1, h2⟩]
    exact hx

/-- A list is fixed by `map` exactly when the function fixes each of its
elements. -/
theorem list_map_eq_self {β : Type} {f : β → β} :
    ∀ {l : List β}, l.map f = l ↔ ∀ x ∈ l, f x = x := by
  intro l
  induction l with
  | nil => simp
  | cons a t ih => simp [ih]

/-- C7: excision keeps, per track and per segment and in original order,
exactly the points whose identity triple occurs in no selected candidate;
the track and segment counts are preserved, so segments that become empty
are kept as empty segments. -/
theorem cut_segments_filters_by_triple (gpx : GPXData) (bad : List GPXData)
    (idxs : List ℕ) :
    (cut_segments gpx bad idxs).length = gpx.length ∧
      (∀ t : ℕ, ((cut_segments gpx bad idxs)[t]?).map List.length =
        (gpx[t]?).map List.length) ∧
      ∀ t s : ℕ, (((cut_segments gpx bad idxs)[t]?).getD [])[s]? =
        (((gpx[t]?).getD [])[s]?).map fun seg =>
          seg.filter fun pt => decide (¬ selectedBadTriple bad idxs (triple pt)) := by
  have hfilter : ∀ seg : List TrackPoint,
      (seg.filter fun pt => decide (triple pt ∉ collect_bad_points bad idxs)) =
        seg.filter fun pt => decide (¬ selectedBadTriple bad idxs (triple pt)) := by
    intro seg
    refine List.filter_congr ?_
    intro pt _
    rw [decide_eq_decide]
    exact not_congr mem_collect_bad_points
  refine ⟨by simp [cut_segments], ?_, ?_⟩
  · intro t
    unfold cut_segments
    rw [List.getElem?_map]
    cases gpx[t]? with
    | none => rfl
    | some tr => simp
  · intro t s
    unfold cut_segments
    rw [List.getElem?_map]
    cases gpx[t]? with
    | none => rfl
    | some tr =>
      simp only [Option.map_some', Option.getD_some]
      rw [List.getElem?_map]
      cases tr[s]? with
      | none => rfl
      | some seg =>
        simp only [Option.map_some']
        exact congrArg some (hfilter seg)

/-- C8 counterexample: `cut_segments` returns the very track it was given,
filtered in place, so when a selected candidate's point occurs in the track
the post-call value of the argument differs from its pre-call value. -/
theorem cut_segments_mutates_input :
    cut_segments gpx0 bad0 [1] ≠ gpx0 := by decide

/-- C8 amended: the returned track is the argument's post-call state; it
coincides with the pre-call state exactly when no point of the track has
its identity triple among the selected candidates' points (the application
protects the original by passing a deep copy in `main.py`). -/
theorem cut_segments_unchanged_iff (gpx : GPXData) (bad : List GPXData)
    (idxs : List ℕ) :
    cut_segments gpx bad idxs = gpx ↔
      ∀ tr ∈ gpx, ∀ seg ∈ tr, ∀ pt ∈ seg,
        ¬ selectedBadTriple bad idxs (triple pt) := by
  unfold cut_segments
  rw [list_map_eq_self]
  constructor
  · intro h tr htr seg hseg pt hpt
    have h2 := (list_map_eq_self.mp (h tr htr)) seg hseg
    have h3 := (List.filter_eq_self.mp h2) pt hpt
    rw [decide_eq_true_eq] at h3
    exact fun hsel => h3 (mem_collect_bad_points.mpr hsel)
  · intro h tr htr
    rw [list_map_eq_self]
    intro seg hseg
    rw [List.filter_eq_self]
    intro pt hpt
    rw [decide_eq_true_eq]
    exact fun hmem => h tr htr seg hseg pt hpt (mem_collect_bad_points.mp hmem)

/-- C3: the code's keep-only-selected mode (mode 2) computes the complement
of the selection over the 0-based range `range(len_bad_segments)`, while
excision interprets indexes as 1-based; at one candidate with an empty
selection the code removes nothing, whereas the complement over the 1-based
range `[1, candidateCount]` prescribed by the spec removes candidate 1's
points. -/
theorem keep_only_mode_mismatch :
    input_bad_segments 1 2 [] = [0] ∧
      complement_spec 1 [] = [1] ∧
      cut_segments gpx0 bad0 (input_bad_segments 1 2 []) = [[[pt0]]] ∧
      cut_segments gpx0 bad0 (complement_spec 1 []) = [[[]]] ∧
      cut_segments gpx0 bad0 (input_bad_segments 1 2 []) ≠
        cut_segments gpx0 bad0 (complement_spec 1 []) := by decide

end TrackCleaner
